import Mathlib

/-!
Shallow embedding of the DMFT reference solver (2D square-lattice Hubbard
model at half filling, static Hartree self-energy), together with theorems
about its components: the dispersion, the first hybridization moment, the
impurity solver, the self-consistency update and the fixed-count driver loop.

Numpy arrays of complex numbers are embedded as `List ℂ`; the idiom
"allocate `np.zeros(N)`, then a `for` loop sets entry `n`" is embedded as a
`List.foldl` over `List.range N` starting from `List.replicate N 0` and
applying `List.set` at each index.  `scipy.integrate.dblquad` is embedded as
the iterated interval integral (scipy passes the INNER variable as the first
argument of the integrand, so `dblquad f a b g h = ∫ x in a..b, ∫ y in
(g x)..(h x), f y x`).
-/

open scoped Real

noncomputable section

/-- Dispersion relation of the 2D square lattice, hopping set to t = -1.0 as
the energy unit: `eps_k(kx, ky) = -2.0*(cos(kx) + cos(ky))`. -/
def eps_k (kx ky : ℝ) : ℝ := -2.0 * (Real.cos kx + Real.cos ky)

/-- Embedding of `scipy.integrate.dblquad(func, a, b, gfun, hfun)[0]`:
`∫_a^b dx ∫_{gfun(x)}^{hfun(x)} dy func(y, x)` (the integrand receives the
inner variable first). -/
def dblquad (func : ℝ → ℝ → ℝ) (a b : ℝ) (gfun hfun : ℝ → ℝ) : ℝ :=
  ∫ x in a..b, ∫ y in (gfun x)..(hfun x), func y x

/-- First moment of the hybridization function:
`1.0/(2.0*np.pi)**2.0 * (int_eps_k_squared - int_eps_k)`, where both
integrals run over the Brillouin zone `[-π, π]²`. -/
def get_hyb_fm : ℝ :=
  let kx_limit_low : ℝ := -Real.pi
  let kx_limit_high : ℝ := Real.pi
  let ky_limit_low : ℝ → ℝ := fun _ => -Real.pi
  let ky_limit_high : ℝ → ℝ := fun _ => Real.pi
  let int_eps_k : ℝ :=
    dblquad eps_k kx_limit_low kx_limit_high ky_limit_low ky_limit_high
  let eps_k_squared : ℝ → ℝ → ℝ := fun kx ky => eps_k kx ky * eps_k kx ky
  let int_eps_k_squared : ℝ :=
    dblquad eps_k_squared kx_limit_low kx_limit_high ky_limit_low ky_limit_high
  1.0 / (2.0 * Real.pi) ^ (2 : ℕ) * (int_eps_k_squared - int_eps_k)

/-- The model class: hopping `t`, inverse temperature `beta`, Hubbard
interaction `U`, and the current hybridization function `hyb` (an ordered
sequence of complex numbers indexed by the Matsubara index). -/
structure Model where
  t : ℝ
  beta : ℝ
  U : ℝ
  hyb : List ℂ

/-- The dispersion method of the model class; it hard-codes the coefficient
`-2.0` and reads none of the model's fields. -/
def Model.eps_k (_ : Model) (kx ky : ℝ) : ℝ := -2.0 * (Real.cos kx + Real.cos ky)

/-- The fermionic Matsubara frequency `iwn = 1.0j * (2.0*n + 1.0) * np.pi / beta`. -/
def iwn (beta : ℝ) (n : ℕ) : ℂ :=
  Complex.I * (2.0 * (n : ℂ) + 1.0) * (Real.pi : ℂ) / (beta : ℂ)

/-- `ImpuritySolver.solve`: allocate `green_impurity = np.zeros(hyb.shape)`,
set `self_energy[n] = U/2` (static Hartree), then for each `n` set
`green_impurity[n] = 1.0/(iwn - hyb[n] - self_energy[n])`. -/
def ImpuritySolver.solve (model : Model) : List ℂ :=
  let self_energy : List ℂ := List.replicate model.hyb.length ((model.U : ℂ) / 2.0)
  (List.range model.hyb.length).foldl
    (fun green_impurity n =>
      green_impurity.set n
        (1.0 / (iwn model.beta n - model.hyb.getD n 0 - self_energy.getD n 0)))
    (List.replicate model.hyb.length 0)

/-- `SelfConsistency.green_lattice_scalar_real`: real part of the lattice
Green function at one frequency, `Re(1/(iwn - eps_k(kx,ky) - Σ[n]))`. -/
def SelfConsistency.green_lattice_scalar_real (model : Model) (kx ky : ℝ)
    (self_energy : List ℂ) (n : ℕ) : ℝ :=
  (1.0 / (iwn model.beta n - (model.eps_k kx ky : ℂ) - self_energy.getD n 0)).re

/-- `SelfConsistency.green_lattice_scalar_imag`: imaginary part of the
lattice Green function at one frequency. -/
def SelfConsistency.green_lattice_scalar_imag (model : Model) (kx ky : ℝ)
    (self_energy : List ℂ) (n : ℕ) : ℝ :=
  (1.0 / (iwn model.beta n - (model.eps_k kx ky : ℂ) - self_energy.getD n 0)).im

/-- Step 0 of `SelfConsistency.run_selfconsistency`: extract the self-energy
from the impurity Green function, `self_energy[n] = iwn - hyb[n] - 1/G_imp[n]`. -/
def SelfConsistency.self_energy (model : Model) (green_impurity : List ℂ) : List ℂ :=
  (List.range green_impurity.length).foldl
    (fun se n =>
      se.set n (iwn model.beta n - model.hyb.getD n 0 - 1.0 / green_impurity.getD n 0))
    (List.replicate green_impurity.length 0)

/-- Step 1 of `SelfConsistency.run_selfconsistency`: the lattice-averaged
Green function, `green_impurity_new[n] = (dblquad(Re ...) + 1j*dblquad(Im ...))
/ (2π)²`, one double integral per part per frequency. -/
def SelfConsistency.green_impurity_new (model : Model) (green_impurity : List ℂ)
    (self_energy : List ℂ) : List ℂ :=
  let kx_limit_low : ℝ := -Real.pi
  let kx_limit_high : ℝ := Real.pi
  let ky_limit_low : ℝ → ℝ := fun _ => -Real.pi
  let ky_limit_high : ℝ → ℝ := fun _ => Real.pi
  (List.range green_impurity.length).foldl
    (fun gnew n =>
      gnew.set n
        (((dblquad (fun kx ky => SelfConsistency.green_lattice_scalar_real model kx ky self_energy n)
              kx_limit_low kx_limit_high ky_limit_low ky_limit_high : ℂ)
          + Complex.I *
            (dblquad (fun kx ky => SelfConsistency.green_lattice_scalar_imag model kx ky self_energy n)
              kx_limit_low kx_limit_high ky_limit_low ky_limit_high : ℂ))
         / ((2.0 * (Real.pi : ℂ)) ^ (2 : ℕ))))
    (List.replicate green_impurity.length 0)

/-- Step 2 of `SelfConsistency.run_selfconsistency`: the updated
hybridization, `hyb_new[n] = iwn - 1/green_impurity_new[n] - self_energy[n]`. -/
def SelfConsistency.hyb_new (model : Model) (green_impurity : List ℂ)
    (green_impurity_new : List ℂ) (self_energy : List ℂ) : List ℂ :=
  (List.range green_impurity.length).foldl
    (fun hyb n =>
      hyb.set n
        (iwn model.beta n - 1.0 / green_impurity_new.getD n 0 - self_energy.getD n 0))
    (List.replicate green_impurity.length 0)

/-- `SelfConsistency.run_selfconsistency`: extract the self-energy, compute
the lattice average by double integration, derive the new hybridization. -/
def SelfConsistency.run_selfconsistency (model : Model) (green_impurity : List ℂ) : List ℂ :=
  let self_energy := SelfConsistency.self_energy model green_impurity
  let green_impurity_new := SelfConsistency.green_impurity_new model green_impurity self_energy
  SelfConsistency.hyb_new model green_impurity green_impurity_new self_energy

/-- One pass of the driver loop's body: build a `Model` from the current
hybridization, run the impurity solver, run the self-consistency. -/
def dmftStep (t beta U : ℝ) (hyb : List ℂ) : List ℂ :=
  let model : Model := ⟨t, beta, U, hyb⟩
  let green_impurity := ImpuritySolver.solve model
  SelfConsistency.run_selfconsistency model green_impurity

/-- The driver loop of `main`, with the five run parameters of §6 made
explicit: start from `hyb = np.zeros(n_freq)`, iterate the
solver/self-consistency body `iter_max` times, and return the real
frequency grid `(2n+1)π/β` together with the final hybridization. -/
def run_dmft (n_freq : ℕ) (t beta U : ℝ) (iter_max : ℕ) : List ℝ × List ℂ :=
  let hyb0 : List ℂ := List.replicate n_freq 0
  let hyb :=
    (List.range iter_max).foldl
      (fun hyb _ =>
        let model : Model := ⟨t, beta, U, hyb⟩
        let impurity_solver_green_impurity := ImpuritySolver.solve model
        SelfConsistency.run_selfconsistency model impurity_solver_green_impurity)
      hyb0
  let frequencies : List ℝ :=
    (List.range n_freq).map (fun n : ℕ => (2 * (n : ℝ) + 1) * Real.pi / beta)
  (frequencies, hyb)

/-- `main` of the reference: `n_freq = 200`, `t = -1.0`, `beta = 10.0`,
`U = 4.0`, `iter_max = 20`. -/
def main : List ℝ × List ℂ := run_dmft 200 (-1) 10 4 20

/-! ### Helper lemmas about the zeros-then-set loop idiom -/

/-- Folding `set` over any index list leaves the length unchanged. -/
lemma length_foldl_set (f : ℕ → ℂ) (l : List ℕ) (init : List ℂ) :
    (l.foldl (fun g n => g.set n (f n)) init).length = init.length := by
  induction l generalizing init with
  | nil => rfl
  | cons a tl ih => simpa using ih (init.set a (f a))

/-- The zeros-then-set loop writes `f n` into slot `n`: folding
`set · (f ·)` over `List.range N` gives a list whose `n`-th entry is `f n`,
for `n < N`, whenever the initial list is long enough. -/
lemma getD_foldl_set (f : ℕ → ℂ) (N : ℕ) (init : List ℂ) (n : ℕ)
    (hn : n < N) (hN : N ≤ init.length) :
    ((List.range N).foldl (fun g k => g.set k (f k)) init).getD n 0 = f n := by
  induction N generalizing n with
  | zero => exact absurd hn (Nat.not_lt_zero n)
  | succ N ih =>
    rw [List.range_succ, List.foldl_append, List.foldl_cons, List.foldl_nil]
    have hlen : ((List.range N).foldl (fun g k => g.set k (f k)) init).length
        = init.length := length_foldl_set f _ init
    rcases Nat.lt_succ_iff_lt_or_eq.mp hn with h | h
    · have hne : N ≠ n := (Nat.ne_of_lt h).symm
      have hn' : n < (((List.range N).foldl (fun g k => g.set k (f k)) init).set N (f N)).length := by
        rw [List.length_set, hlen]
        exact lt_of_lt_of_le (Nat.lt_of_lt_of_le h (Nat.le_succ N)) hN
      rw [List.getD_eq_getElem _ _ hn', List.getElem_set_ne hne,
        ← List.getD_eq_getElem _ (0 : ℂ)]
      exact ih n h (le_trans (Nat.le_succ N) hN)
    · subst h
      have hn' : n < (((List.range n).foldl (fun g k => g.set k (f k)) init).set n (f n)).length := by
        rw [List.length_set, hlen]
        exact lt_of_lt_of_le (Nat.lt_succ_self n) hN
      rw [List.getD_eq_getElem _ _ hn', List.getElem_set_self]

/-- `getD` on a `replicate`, within bounds. -/
lemma getD_replicate_lt {a d : ℂ} {N n : ℕ} (hn : n < N) :
    (List.replicate N a).getD n d = a := by
  rw [List.getD_eq_getElem _ _ (by simpa using hn), List.getElem_replicate]

/-- Elementwise description of `ImpuritySolver.solve`: entry `n` is
`1/(iωₙ - Δ[n] - U/2)`. -/
lemma solve_getD (model : Model) (n : ℕ) (hn : n < model.hyb.length) :
    (ImpuritySolver.solve model).getD n 0
      = 1 / (iwn model.beta n - model.hyb.getD n 0 - (model.U : ℂ) / 2) := by
  unfold ImpuritySolver.solve
  rw [getD_foldl_set _ _ _ n hn (by simp), getD_replicate_lt hn]
  norm_num

/-- `ImpuritySolver.solve` preserves the length of the hybridization. -/
lemma solve_length (model : Model) :
    (ImpuritySolver.solve model).length = model.hyb.length := by
  unfold ImpuritySolver.solve
  rw [length_foldl_set, List.length_replicate]

/-- Elementwise description of the self-energy extraction. -/
lemma self_energy_getD (model : Model) (green_impurity : List ℂ) (n : ℕ)
    (hn : n < green_impurity.length) :
    (SelfConsistency.self_energy model green_impurity).getD n 0
      = iwn model.beta n - model.hyb.getD n 0 - 1 / green_impurity.getD n 0 := by
  unfold SelfConsistency.self_energy
  rw [getD_foldl_set _ _ _ n hn (by simp)]
  norm_num

/-- Elementwise description of the hybridization update. -/
lemma hyb_new_getD (model : Model) (green_impurity gnew se : List ℂ) (n : ℕ)
    (hn : n < green_impurity.length) :
    (SelfConsistency.hyb_new model green_impurity gnew se).getD n 0
      = iwn model.beta n - 1 / gnew.getD n 0 - se.getD n 0 := by
  unfold SelfConsistency.hyb_new
  rw [getD_foldl_set _ _ _ n hn (by simp)]
  norm_num

/-- `SelfConsistency.run_selfconsistency` preserves the length of the
impurity Green function. -/
lemma run_selfconsistency_length (model : Model) (green_impurity : List ℂ) :
    (SelfConsistency.run_selfconsistency model green_impurity).length
      = green_impurity.length := by
  unfold SelfConsistency.run_selfconsistency SelfConsistency.hyb_new
  rw [length_foldl_set, List.length_replicate]

/-! ### Claim theorems -/

/-- **C1**: for every Model with `beta > 0` and every Matsubara index
`n < N`, `ImpuritySolver.solve` returns a sequence whose `n`-th entry is
`1/(iωₙ - Δ[n] - U/2)`: the self-energy used is the constant `U/2`. -/
theorem impurity_solver_solve_entry (model : Model) (_ : 0 < model.beta)
    (n : ℕ) (hn : n < model.hyb.length) :
    (ImpuritySolver.solve model).getD n 0
      = 1 / (iwn model.beta n - model.hyb.getD n 0 - (model.U : ℂ) / 2) :=
  solve_getD model n hn

/-- Witness for C1 at the concrete model `t = -1, beta = 10, U = 4,
Δ = [I]`, index `n = 0`. -/
theorem impurity_solver_solve_entry_witness :
    0 < (10 : ℝ) ∧ 0 < (Model.mk (-1) 10 4 [Complex.I]).hyb.length ∧
      (ImpuritySolver.solve (Model.mk (-1) 10 4 [Complex.I])).getD 0 0
        = 1 / (iwn 10 0 - (Model.mk (-1) 10 4 [Complex.I]).hyb.getD 0 0 - ((4 : ℝ) : ℂ) / 2) :=
  ⟨by norm_num, by decide,
    impurity_solver_solve_entry (Model.mk (-1) 10 4 [Complex.I]) (by norm_num) 0 (by decide)⟩

/-- **C2**: composing the self-energy extraction (step 1) with the
hybridization update (step 3) with `G_latt` replaced by `G_imp` itself
returns the hybridization unchanged at every index with `G_imp[n] ≠ 0`. -/
theorem selfconsistency_roundtrip (model : Model) (green_impurity : List ℂ)
    (n : ℕ) (hn : n < green_impurity.length)
    (_ : green_impurity.getD n 0 ≠ 0) :
    (SelfConsistency.hyb_new model green_impurity green_impurity
        (SelfConsistency.self_energy model green_impurity)).getD n 0
      = model.hyb.getD n 0 := by
  rw [hyb_new_getD _ _ _ _ _ hn, self_energy_getD _ _ _ hn]
  ring

/-- Witness for C2 at `Δ = [2]`, `G_imp = [3]`, `n = 0`. -/
theorem selfconsistency_roundtrip_witness :
    0 < ([(3 : ℂ)] : List ℂ).length ∧ ([(3 : ℂ)] : List ℂ).getD 0 0 ≠ 0 ∧
      (SelfConsistency.hyb_new (Model.mk (-1) 10 4 [(2 : ℂ)]) [(3 : ℂ)] [(3 : ℂ)]
          (SelfConsistency.self_energy (Model.mk (-1) 10 4 [(2 : ℂ)]) [(3 : ℂ)])).getD 0 0
        = (Model.mk (-1) 10 4 [(2 : ℂ)]).hyb.getD 0 0 :=
  ⟨by decide, by norm_num,
    selfconsistency_roundtrip (Model.mk (-1) 10 4 [(2 : ℂ)]) [(3 : ℂ)] 0 (by decide) (by norm_num)⟩

/-- The Matsubara frequency is nonzero whenever `beta ≠ 0`. -/
lemma iwn_ne_zero (beta : ℝ) (hb : beta ≠ 0) (n : ℕ) : iwn beta n ≠ 0 := by
  unfold iwn
  apply div_ne_zero
  · apply mul_ne_zero
    · apply mul_ne_zero Complex.I_ne_zero
      have : (2.0 * (n : ℂ) + 1.0) = ((2 * n + 1 : ℕ) : ℂ) := by push_cast; norm_num
      rw [this]
      exact_mod_cast Nat.succ_ne_zero (2 * n)
    · exact_mod_cast Real.pi_ne_zero
  · exact_mod_cast hb

/-- **C3**: if `G_imp` is the output of `ImpuritySolver.solve` on the same
Model (denominators nonzero), then the self-energy re-derived in the
self-consistency step, `Σ[n] = iωₙ - Δ[n] - 1/G_imp[n]`, equals the
analytic Hartree value `U/2` at every index. -/
theorem self_energy_rederivation (model : Model) (_ : 0 < model.beta)
    (_ : ∀ n < model.hyb.length,
        iwn model.beta n - model.hyb.getD n 0 - (model.U : ℂ) / 2 ≠ 0)
    (n : ℕ) (hn : n < model.hyb.length) :
    (SelfConsistency.self_energy model (ImpuritySolver.solve model)).getD n 0
      = (model.U : ℂ) / 2 := by
  have hlen : n < (ImpuritySolver.solve model).length := by
    rw [solve_length]; exact hn
  rw [self_energy_getD _ _ _ hlen, solve_getD model n hn, one_div_one_div]
  ring

/-- Witness for C3 at the model `t = -1, beta = 10, U = 0, Δ = [0]`. -/
theorem self_energy_rederivation_witness :
    0 < (10 : ℝ) ∧
      (∀ n < (Model.mk (-1) 10 0 [0]).hyb.length,
        iwn 10 n - (Model.mk (-1) 10 0 [0]).hyb.getD n 0 - ((0 : ℝ) : ℂ) / 2 ≠ 0) ∧
      (SelfConsistency.self_energy (Model.mk (-1) 10 0 [0])
          (ImpuritySolver.solve (Model.mk (-1) 10 0 [0]))).getD 0 0 = ((0 : ℝ) : ℂ) / 2 := by
  have hden : ∀ n < (Model.mk (-1) 10 0 [0]).hyb.length,
      iwn 10 n - (Model.mk (-1) 10 0 [0]).hyb.getD n 0 - ((0 : ℝ) : ℂ) / 2 ≠ 0 := by
    intro n hn
    have hn0 : n = 0 := Nat.lt_one_iff.mp (by simpa using hn)
    subst hn0
    simpa using iwn_ne_zero 10 (by norm_num) 0
  exact ⟨by norm_num, hden,
    self_energy_rederivation (Model.mk (-1) 10 0 [0]) (by norm_num) hden 0 (by decide)⟩

/-- **C7**: with zero hybridization and `U = 0`, the impurity solver
returns `1/(iωₙ)` exactly; in the scenario `N = 1, beta = 10, U = 0`,
the single output is `-(10/π)·i`, purely imaginary with negative
imaginary part. -/
theorem noninteracting_base_case :
    (∀ (t beta : ℝ) (N : ℕ), 0 < beta → ∀ n < N,
        (ImpuritySolver.solve (Model.mk t beta 0 (List.replicate N 0))).getD n 0
          = 1 / iwn beta n)
    ∧ (ImpuritySolver.solve (Model.mk (-1) 10 0 [0])).getD 0 0
        = -(10 / (Real.pi : ℂ)) * Complex.I
    ∧ ((ImpuritySolver.solve (Model.mk (-1) 10 0 [0])).getD 0 0).re = 0
    ∧ ((ImpuritySolver.solve (Model.mk (-1) 10 0 [0])).getD 0 0).im < 0 := by
  have hgen : ∀ (t beta : ℝ) (N : ℕ), 0 < beta → ∀ n < N,
      (ImpuritySolver.solve (Model.mk t beta 0 (List.replicate N 0))).getD n 0
        = 1 / iwn beta n := by
    intro t beta N _ n hn
    rw [solve_getD (Model.mk t beta 0 (List.replicate N 0)) n (by simpa using hn)]
    rw [show (Model.mk t beta 0 (List.replicate N 0)).hyb = List.replicate N 0 from rfl,
      getD_replicate_lt hn]
    norm_num
  have hval : (ImpuritySolver.solve (Model.mk (-1) 10 0 [0])).getD 0 0
      = -(10 / (Real.pi : ℂ)) * Complex.I := by
    have h1 : (ImpuritySolver.solve (Model.mk (-1) 10 0 [0])).getD 0 0 = 1 / iwn 10 0 := by
      simpa using hgen (-1) 10 1 (by norm_num) 0 (by norm_num)
    have h2 : iwn 10 0 = Complex.I * (Real.pi : ℂ) / 10 := by
      unfold iwn; norm_num
    have hpi : (Real.pi : ℂ) ≠ 0 := by exact_mod_cast Real.pi_ne_zero
    rw [h1, h2]
    field_simp
    ring_nf
    simp [Complex.I_sq]
  refine ⟨hgen, hval, ?_, ?_⟩
  · rw [hval]; simp [Complex.div_re, Complex.div_im]
  · rw [hval]
    simp [Complex.div_re, Complex.div_im]
    positivity

/-- Witness for C7 at `t = -1, beta = 10, N = 1, n = 0`. -/
theorem noninteracting_base_case_witness :
    0 < (10 : ℝ) ∧ 0 < 1 ∧
      (ImpuritySolver.solve (Model.mk (-1) 10 0 (List.replicate 1 0))).getD 0 0
        = 1 / iwn 10 0 :=
  ⟨by norm_num, by decide, noninteracting_base_case.1 (-1) 10 1 (by norm_num) 0 (by decide)⟩

/-- **C8**: the dispersion satisfies the square-lattice symmetries
`ε(kx, ky) = ε(-kx, -ky) = ε(ky, kx)`, and the point values
`ε(0,0) = -4·|t|` (with `t = -1`) and `ε(π, 0) = 0`. -/
theorem dispersion_symmetry :
    (∀ kx ky : ℝ, eps_k kx ky = eps_k (-kx) (-ky) ∧ eps_k kx ky = eps_k ky kx)
    ∧ eps_k 0 0 = -4 * |(-1 : ℝ)| ∧ eps_k Real.pi 0 = 0 := by
  refine ⟨fun kx ky => ⟨?_, ?_⟩, ?_, ?_⟩ <;>
    simp [eps_k, Real.cos_neg, Real.cos_pi, Real.cos_zero] <;> norm_num
  ring

/-- A `for`-loop that ignores its index is `Function.iterate`. -/
lemma foldl_range_iterate {α : Type} (f : α → α) (k : ℕ) (x : α) :
    (List.range k).foldl (fun a _ => f a) x = f^[k] x := by
  induction k with
  | zero => rfl
  | succ k ih =>
    rw [List.range_succ, List.foldl_append, ih, List.foldl_cons, List.foldl_nil,
      Function.iterate_succ_apply']

/-- One driver-loop pass preserves the hybridization length. -/
lemma dmftStep_length (t beta U : ℝ) (hyb : List ℂ) :
    (dmftStep t beta U hyb).length = hyb.length := by
  unfold dmftStep
  rw [run_selfconsistency_length, solve_length]

/-- The first component of `run_dmft` is the frequency grid. -/
lemma run_dmft_fst (n_freq : ℕ) (t beta U : ℝ) (iter_max : ℕ) :
    (run_dmft n_freq t beta U iter_max).1
      = (List.range n_freq).map (fun n : ℕ => (2 * (n : ℝ) + 1) * Real.pi / beta) := rfl

/-- The second component of `run_dmft` is the `iter_max`-fold loop of the
solver/self-consistency pass started from the zero hybridization. -/
lemma run_dmft_snd (n_freq : ℕ) (t beta U : ℝ) (iter_max : ℕ) :
    (run_dmft n_freq t beta U iter_max).2
      = (List.range iter_max).foldl (fun hyb _ => dmftStep t beta U hyb)
          (List.replicate n_freq 0) := rfl

/-- Every iterate of the driver-loop pass keeps length `N`. -/
lemma iterate_dmftStep_length (t beta U : ℝ) (N : ℕ) : ∀ k : ℕ,
    ((dmftStep t beta U)^[k] (List.replicate N (0 : ℂ))).length = N := by
  intro k
  induction k with
  | zero => simp
  | succ k ih => rw [Function.iterate_succ_apply', dmftStep_length, ih]

/-- **C6**: the length-N invariant is preserved by every operation:
`ImpuritySolver.solve` returns a sequence of the hybridization's length,
`SelfConsistency.run_selfconsistency` returns a hybridization of the
impurity Green function's length, and every iteration of the driver loop
keeps the hybridization at length `N`. -/
theorem length_invariant :
    (∀ model : Model, (ImpuritySolver.solve model).length = model.hyb.length)
    ∧ (∀ (model : Model) (green_impurity : List ℂ),
        (SelfConsistency.run_selfconsistency model green_impurity).length
          = green_impurity.length)
    ∧ ∀ (t beta U : ℝ) (N k : ℕ),
        ((dmftStep t beta U)^[k] (List.replicate N (0 : ℂ))).length = N :=
  ⟨solve_length, run_selfconsistency_length,
    fun t beta U N k => iterate_dmftStep_length t beta U N k⟩

/-- **C5**: the driver starts from the zero hybridization, performs exactly
20 iterations of build-Model/solve/self-consistency with no early exit, and
returns the frequencies `(2n+1)π/β` (with `β = 10`) together with the final
hybridization, both of length `N = 200`. -/
theorem driver_loop_shape :
    main.1 = (List.range 200).map (fun n : ℕ => (2 * (n : ℝ) + 1) * Real.pi / 10)
    ∧ main.2 = (dmftStep (-1) 10 4)^[20] (List.replicate 200 0)
    ∧ main.1.length = 200 ∧ main.2.length = 200 := by
  have h2 : main.2 = (dmftStep (-1) 10 4)^[20] (List.replicate 200 0) := by
    rw [show main = run_dmft 200 (-1) 10 4 20 from rfl, run_dmft_snd]
    exact foldl_range_iterate (dmftStep (-1) 10 4) 20 (List.replicate 200 0)
  have h1 : main.1
      = (List.range 200).map (fun n : ℕ => (2 * (n : ℝ) + 1) * Real.pi / 10) := by
    rw [show main = run_dmft 200 (-1) 10 4 20 from rfl, run_dmft_fst]
  refine ⟨h1, h2, ?_, ?_⟩
  · rw [h1, List.length_map, List.length_range]
  · rw [h2, iterate_dmftStep_length]

/-- The impurity solver never reads the hopping field of the model. -/
lemma solve_t_irrel (t t' beta U : ℝ) (hyb : List ℂ) :
    ImpuritySolver.solve ⟨t, beta, U, hyb⟩ = ImpuritySolver.solve ⟨t', beta, U, hyb⟩ := rfl

/-- The self-consistency never reads the hopping field of the model. -/
lemma run_sc_t_irrel (t t' beta U : ℝ) (hyb g : List ℂ) :
    SelfConsistency.run_selfconsistency ⟨t, beta, U, hyb⟩ g
      = SelfConsistency.run_selfconsistency ⟨t', beta, U, hyb⟩ g := rfl

/-- **C10**: the hopping `t` stored in `Model` is never read: `Model.eps_k`
hard-codes the coefficient `-2.0`, and two runs of the driver differing only
in `t` produce identical frequency and hybridization sequences. -/
theorem hopping_never_read :
    (∀ (model : Model) (kx ky : ℝ),
        model.eps_k kx ky = -2 * (Real.cos kx + Real.cos ky))
    ∧ ∀ (n_freq : ℕ) (t t' beta U : ℝ) (iter_max : ℕ),
        run_dmft n_freq t beta U iter_max = run_dmft n_freq t' beta U iter_max := by
  constructor
  · intro model kx ky
    norm_num [Model.eps_k]
  · intro n_freq t t' beta U iter_max
    have hstep : dmftStep t beta U = dmftStep t' beta U := by
      funext hyb
      show SelfConsistency.run_selfconsistency ⟨t, beta, U, hyb⟩
          (ImpuritySolver.solve ⟨t, beta, U, hyb⟩) = _
      rw [solve_t_irrel t t' beta U hyb]
      exact run_sc_t_irrel t t' beta U hyb _
    rw [Prod.ext_iff]
    refine ⟨?_, ?_⟩
    · rw [run_dmft_fst, run_dmft_fst]
    · rw [run_dmft_snd, run_dmft_snd, hstep]

/-! ### The first hybridization moment (claim C4) -/

/-- The dispersion is symmetric under exchange of its arguments. -/
lemma eps_comm (a b : ℝ) : eps_k a b = eps_k b a := by
  unfold eps_k; ring

/-- Inner Brillouin-zone integral of the dispersion. -/
lemma inner_eps (x : ℝ) :
    (∫ y in (-Real.pi)..Real.pi, eps_k y x) = -4 * Real.pi * Real.cos x := by
  have h : ∀ y : ℝ, eps_k y x = (-2) * (Real.cos y + Real.cos x) := by
    intro y; norm_num [eps_k]
  simp only [h]
  rw [intervalIntegral.integral_const_mul,
    intervalIntegral.integral_add (Real.continuous_cos.intervalIntegrable _ _)
      intervalIntegrable_const,
    integral_cos, intervalIntegral.integral_const]
  simp [Real.sin_pi]
  ring

/-- Inner Brillouin-zone integral of the squared dispersion. -/
lemma inner_eps_sq (x : ℝ) :
    (∫ y in (-Real.pi)..Real.pi, eps_k y x * eps_k y x)
      = 4 * Real.pi + 8 * Real.pi * Real.cos x ^ 2 := by
  have h : ∀ y : ℝ, eps_k y x * eps_k y x
      = 4 * Real.cos y ^ 2 + (8 * Real.cos x) * Real.cos y + 4 * Real.cos x ^ 2 := by
    intro y; norm_num [eps_k]; ring
  simp only [h]
  rw [intervalIntegral.integral_add
      (((continuous_const.mul (Real.continuous_cos.pow 2)).intervalIntegrable _ _).add
        ((continuous_const.mul Real.continuous_cos).intervalIntegrable _ _))
      intervalIntegrable_const,
    intervalIntegral.integral_add
      ((continuous_const.mul (Real.continuous_cos.pow 2)).intervalIntegrable _ _)
      ((continuous_const.mul Real.continuous_cos).intervalIntegrable _ _),
    intervalIntegral.integral_const_mul, intervalIntegral.integral_const_mul,
    integral_cos, integral_cos_sq, intervalIntegral.integral_const]
  simp [Real.sin_pi, Real.sin_neg, Real.cos_neg, Real.cos_pi]
  ring

/-- The double integral of the dispersion over the Brillouin zone vanishes. -/
lemma dblquad_eps_k :
    dblquad eps_k (-Real.pi) Real.pi (fun _ => -Real.pi) (fun _ => Real.pi) = 0 := by
  unfold dblquad
  simp only [inner_eps]
  rw [intervalIntegral.integral_const_mul, integral_cos]
  simp [Real.sin_pi]

/-- The double integral of the squared dispersion over the Brillouin zone. -/
lemma dblquad_eps_k_sq :
    dblquad (fun kx ky => eps_k kx ky * eps_k kx ky) (-Real.pi) Real.pi
      (fun _ => -Real.pi) (fun _ => Real.pi) = 16 * Real.pi ^ 2 := by
  unfold dblquad
  simp only [inner_eps_sq]
  rw [intervalIntegral.integral_add
      intervalIntegrable_const
      ((continuous_const.mul (Real.continuous_cos.pow 2)).intervalIntegrable _ _),
    intervalIntegral.integral_const, intervalIntegral.integral_const_mul, integral_cos_sq]
  simp [Real.sin_pi, Real.sin_neg, Real.cos_neg, Real.cos_pi]
  ring

/-- Iterated-integral form (outer `kx`, inner `ky`) of the dispersion moment. -/
lemma iint_eps_k :
    (∫ kx in (-Real.pi)..Real.pi, ∫ ky in (-Real.pi)..Real.pi, eps_k kx ky) = 0 := by
  have h : ∀ kx : ℝ, (∫ ky in (-Real.pi)..Real.pi, eps_k kx ky)
      = -4 * Real.pi * Real.cos kx := by
    intro kx
    rw [intervalIntegral.integral_congr (g := fun ky => eps_k ky kx)
      (fun y _ => eps_comm kx y)]
    exact inner_eps kx
  simp only [h]
  rw [intervalIntegral.integral_const_mul, integral_cos]
  simp [Real.sin_pi]

/-- Iterated-integral form of the squared-dispersion moment. -/
lemma iint_eps_k_sq :
    (∫ kx in (-Real.pi)..Real.pi, ∫ ky in (-Real.pi)..Real.pi, eps_k kx ky * eps_k kx ky)
      = 16 * Real.pi ^ 2 := by
  have h : ∀ kx : ℝ, (∫ ky in (-Real.pi)..Real.pi, eps_k kx ky * eps_k kx ky)
      = 4 * Real.pi + 8 * Real.pi * Real.cos kx ^ 2 := by
    intro kx
    rw [intervalIntegral.integral_congr
      (g := fun ky => eps_k ky kx * eps_k ky kx)
      (fun y _ => by rw [eps_comm kx y])]
    exact inner_eps_sq kx
  simp only [h]
  rw [intervalIntegral.integral_add
      intervalIntegrable_const
      ((continuous_const.mul (Real.continuous_cos.pow 2)).intervalIntegrable _ _),
    intervalIntegral.integral_const, intervalIntegral.integral_const_mul, integral_cos_sq]
  simp [Real.sin_pi, Real.sin_neg, Real.cos_neg, Real.cos_pi]
  ring

/-- **C4**: the first-moment helper computes
`Δ₁ = (1/(2π)²)·[∫∫ ε(k)² dk − (∫∫ ε(k) dk)²]` over the Brillouin zone
`[−π, π]²`, and under exact integration its value for the square-lattice
dispersion with `t = −1` is exactly `4`. -/
theorem first_moment_value :
    get_hyb_fm = 1 / (2 * Real.pi) ^ 2 *
        ((∫ kx in (-Real.pi)..Real.pi, ∫ ky in (-Real.pi)..Real.pi, eps_k kx ky * eps_k kx ky)
          - (∫ kx in (-Real.pi)..Real.pi, ∫ ky in (-Real.pi)..Real.pi, eps_k kx ky) ^ 2)
    ∧ get_hyb_fm = 4 := by
  have hval : get_hyb_fm = 4 := by
    simp only [get_hyb_fm]
    rw [dblquad_eps_k, dblquad_eps_k_sq]
    have hpi := Real.pi_ne_zero
    field_simp
    ring
  refine ⟨?_, hval⟩
  rw [hval, iint_eps_k, iint_eps_k_sq]
  have hpi := Real.pi_ne_zero
  field_simp
  ring
